import Mathlib

/-!
# Verification of the JSAVLTree AVL tree library

Shallow embedding of `src/JSAVLTree.js` and `src/unnamed/part_001` (the two
variant implementations of `AVLTree` in this repository), together with proofs
and refutations of the specification's claims.

Modelling conventions:

* Values are `Int` with the numeric comparator recommended by the repository's
  README ("For numbers, you can simply return a-b within the function").
* A JS node object `{value, parent, left, right, count, height}` becomes a
  constructor of the inductive type `JTree`; the parent pointer is represented
  by the position of a node in the tree (a `List Bool` path, `false` = left),
  which is how a pointer that always points toward the root is reflected in a
  purely functional setting.
* The tree handle `{root_, minNode_, maxNode_}` becomes the structure
  `AVLTree`.  The cached min/max node *references* are modelled by the cached
  node's *value* (values are unique in any reachable tree, since duplicate
  insertion is rejected); a reference is resolved back to a position with
  `posOf` where a traversal needs to start from a cached node.
* The upward `traverse_` loops of the source (count updates and `balance_`)
  are fused into the recursive descent: the source updates every node on the
  path from the point of change to the root, bottom-up, and the recursion
  applies exactly the same update to exactly the same nodes on unwinding.
  The body of the `balance_` loop can revisit the same tree position several
  times (after a rotation the source's `node.parent` is the node that was just
  rotated up, which sits at the same position), so `balance_` here takes a
  fuel argument; on every tree the source ever produces at most two visits per
  position occur, so the generous fuel never runs out on reachable states.
* A JavaScript `TypeError` (reading a property of `null`/`undefined`) is
  modelled by `Except.error ()` (for the traversals), by `Option.none` (for
  `getMinimum`/`getMaximum`), or noted in the doc string of the definition.
-/

namespace JSAVLTree

/-- A node of the AVL tree: `AVLTree.Node` from the source
(`src/unnamed/part_001` lines 739-781).  Fields `value`, `left`, `right`,
`count` (number of nodes in the subtree rooted here) and `height` are taken
directly from the source; the `parent` back-pointer is implicit (a node's
parent is the node above it in the tree).  `nil` is the JavaScript `null`. -/
inductive JTree where
  | nil : JTree
  | node (value : Int) (left right : JTree) (count height : Int) : JTree
deriving DecidableEq, Repr

namespace JTree

/-- The numeric comparator injected at construction: the README's recommended
comparator for numbers, `function(a, b) { return a - b; }`. -/
def comparator_ (a b : Int) : Int := a - b

/-- `node.count`, with `0` for an absent child (`node.left ? node.left.count : 0`). -/
def countOf : JTree → Int
  | nil => 0
  | node _ _ _ c _ => c

/-- `node.height`, with `0` for an absent child (`node.left ? node.left.height : 0`). -/
def heightOf : JTree → Int
  | nil => 0
  | node _ _ _ _ h => h

/-- In-order list of the values stored in a subtree (specification-side view,
used to state ordering properties). -/
def inorder : JTree → List Int
  | nil => []
  | node v l r _ _ => inorder l ++ v :: inorder r

/-- Number of nodes actually present in a subtree (specification-side view;
the stored `count` fields are the code's own bookkeeping). -/
def natSize : JTree → Nat
  | nil => 0
  | node _ l r _ _ => natSize l + natSize r + 1

/-- Left rotation, `AVLTree.prototype.leftRotate_` (`part_001` lines 492-516,
identical to `_leftRotate` in `src/JSAVLTree.js` lines 483-507).  The node's
right child `temp` becomes the new subtree root; the node becomes `temp`'s
left child; `temp`'s old left subtree becomes the node's right subtree; the
grandparent's child pointer (here: the position the result is plugged into)
is redirected to `temp`.  Counts: `temp.count = node.count;
node.count -= (temp.right ? temp.right.count : 0) + 1`.  No height field is
written.  The source dereferences `node.right` unconditionally, so it is only
ever invoked with a right child present; the catch-all arm keeps the
definition total. -/
def leftRotate_ : JTree → JTree
  | node v l (node tv tl tr tc th) c h =>
      node tv (node v l tl (c - (countOf tr + 1)) h) tr c th
  | t => t

/-- Right rotation, `AVLTree.prototype.rightRotate_` (`part_001` lines
524-548, identical to `_rightRotate` in `src/JSAVLTree.js` lines 515-539);
the exact mirror of `leftRotate_`. -/
def rightRotate_ : JTree → JTree
  | node v (node tv tl tr tc th) r c h =>
      node tv tl (node v tr r (c - (countOf tl + 1)) h) c th
  | t => t

/-- The double-rotation test for a left-heavy node (`part_001` line 462):
`node.left.right && (!node.left.left || node.left.left.height < node.left.right.height)`. -/
def dblLeft : JTree → Bool
  | node _ ll lr _ _ => lr ≠ nil && (ll = nil || heightOf ll < heightOf lr)
  | nil => false

/-- The double-rotation test for a right-heavy node (`part_001` line 467):
`node.right.left && (!node.right.right || node.right.right.height < node.right.left.height)`. -/
def dblRight : JTree → Bool
  | node _ rl rr _ _ => rl ≠ nil && (rr = nil || heightOf rr < heightOf rl)
  | nil => false

/-- After the rotation(s) at a node, the source recomputes `node.height` from
`node`'s (possibly new) children (`part_001` lines 473-478).  After
`rightRotate_` the original node is the *right* child of the new subtree
root; this helper performs exactly that height write. -/
def fixRightChildHeight : JTree → JTree
  | node v l (node w a b c2 _) c h =>
      node v l (node w a b c2 (max (heightOf a) (heightOf b) + 1)) c h
  | t => t

/-- Mirror of `fixRightChildHeight`: after `leftRotate_` the original node is
the *left* child of the new subtree root. -/
def fixLeftChildHeight : JTree → JTree
  | node v (node w a b c2 _) r c h =>
      node v (node w a b c2 (max (heightOf a) (heightOf b) + 1)) r c h
  | t => t

/-- One position's worth of the `balance_` upward walk
(`AVLTree.prototype.balance_`, `part_001` lines 453-484).  The walk computes
the stored child heights, rotates when their difference exceeds 1 (with the
double-rotation pre-step), then recomputes the original node's height and
moves to `node.parent`.  After a rotation, `node.parent` is the node that was
just rotated up — which occupies the *same* tree position — so the walk can
process one position several times; that loop is the fuel-indexed recursion
here.  When no rotation fires the walk writes `node.height = max(lh, rh) + 1`
and leaves the position upward (the caller, i.e. the unwinding recursion of
`add`/`remove`, continues at the parent).  Note the source never recomputes
the height of the child demoted by the *first* rotation of a double rotation:
that node is off the upward path, and its stored height silently goes stale. -/
def balance_ : Nat → JTree → JTree
  | 0, t => t
  | fuel + 1, t =>
    match t with
    | nil => nil
    | node v l r c h =>
      let lh := heightOf l
      let rh := heightOf r
      if lh - rh > 1 then
        let t1 := if dblLeft l then node v (leftRotate_ l) r c h else node v l r c h
        balance_ fuel (fixRightChildHeight (rightRotate_ t1))
      else if rh - lh > 1 then
        let t1 := if dblRight r then node v l (rightRotate_ r) c h else node v l r c h
        balance_ fuel (fixLeftChildHeight (leftRotate_ t1))
      else
        node v l r c (max lh rh + 1)

/-- Fuel for the per-position `balance_` loop; the source performs at most two
rotations per position on the states it can reach, so this is never exhausted
there. -/
def balFuel : Nat := 64

end JTree

/-- The tree handle: `root_`, and the cached extremal node references
`minNode_`/`maxNode_` (`part_001` lines 79-109), the latter modelled by the
cached node's value (`none` = JavaScript `null`). -/
structure AVLTree where
  root_ : JTree := .nil
  minNode_ : Option Int := none
  maxNode_ : Option Int := none
deriving DecidableEq, Repr

namespace JTree

/-- The descent-and-attach part of `AVLTree.prototype.add` (`part_001` lines
120-170) fused with the two upward walks that follow a successful attach: the
count increments (`node.count++` from `newNode.parent` to the root, lines
159-163) and `balance_(newNode.parent)` (line 164).  The source performs all
increments and then balances bottom-up along the same path; each balance step
reads and writes only the subtree below its position, so interleaving the two
walks level by level on the unwinding recursion computes the same tree.
Returns the new subtree, whether a node was inserted, and the updated min/max
caches (updated exactly when the new node's parent *is* the cached extremum,
lines 140-142 and 149-151). -/
def addNode (x : Int) : JTree → Option Int → Option Int → JTree × Bool × Option Int × Option Int
  | nil, mn, mx => (nil, false, mn, mx)
  | node v l r c h, mn, mx =>
    if comparator_ v x > 0 then
      if l = nil then
        (balance_ balFuel (node v (node x nil nil 1 1) r (c + 1) h), true,
         if mn = some v then some x else mn, mx)
      else
        let res := addNode x l mn mx
        if res.2.1 then
          (balance_ balFuel (node v res.1 r (c + 1) h), true, res.2.2.1, res.2.2.2)
        else (node v res.1 r c h, false, res.2.2.1, res.2.2.2)
    else if comparator_ v x < 0 then
      if r = nil then
        (balance_ balFuel (node v l (node x nil nil 1 1) (c + 1) h), true,
         mn, if mx = some v then some x else mx)
      else
        let res := addNode x r mn mx
        if res.2.1 then
          (balance_ balFuel (node v l res.1 (c + 1) h), true, res.2.2.1, res.2.2.2)
        else (node v l res.1 c h, false, res.2.2.1, res.2.2.2)
    else
      (node v l r c h, false, mn, mx)

end JTree

open JTree

/-- `AVLTree.prototype.add` (`part_001` lines 120-170): an empty tree gets a
fresh root that is also the cached min and max (lines 122-127); otherwise the
descent/attach/update recursion `addNode` runs from the root. -/
def add (t : AVLTree) (x : Int) : AVLTree × Bool :=
  match t.root_ with
  | .nil => ({ root_ := .node x .nil .nil 1 1, minNode_ := some x, maxNode_ := some x }, true)
  | root =>
      match addNode x root t.minNode_ t.maxNode_ with
      | (r', inserted, mn', mx') => ({ root_ := r', minNode_ := mn', maxNode_ := mx' }, inserted)

/-- `AVLTree.prototype.clear` (`part_001` lines 208-212, `src/JSAVLTree.js`
lines 200-204): root and both caches are reset to `null`. -/
def clear (_t : AVLTree) : AVLTree := { root_ := .nil, minNode_ := none, maxNode_ := none }

/-- The comparator-guided descent of `AVLTree.prototype.contains`
(`part_001` lines 222-242). -/
def containsNode : JTree → Int → Bool
  | .nil, _ => false
  | .node v l r _ _, x =>
    if comparator_ v x > 0 then containsNode l x
    else if comparator_ v x < 0 then containsNode r x
    else true

/-- `AVLTree.prototype.contains`. -/
def contains (t : AVLTree) (x : Int) : Bool := containsNode t.root_ x

/-- `AVLTree.prototype.getCount` (`part_001` lines 250-252):
`this.root_ ? this.root_.count : 0`. -/
def getCount (t : AVLTree) : Int := countOf t.root_

/-- `AVLTree.prototype.getHeight` (`part_001` lines 294-296):
`this.root_ ? this.root_.height : 0`. -/
def getHeight (t : AVLTree) : Int := heightOf t.root_

/-- `AVLTree.prototype.getMinimum` (`part_001` lines 273-275):
`this.getMinNode_().value` where `getMinNode_()` returns the cached
`minNode_`.  On an empty tree `minNode_` is `null` and reading `.value`
throws a `TypeError`; that crash is modelled by the `none` result. -/
def getMinimum (t : AVLTree) : Option Int := t.minNode_

/-- `AVLTree.prototype.getMaximum` (`part_001` lines 283-285); `none` models
the `TypeError` thrown on an empty tree. -/
def getMaximum (t : AVLTree) : Option Int := t.maxNode_

/-- Convenience: the tree built by a sequence of `add`s starting from the
empty tree (the constructor, `part_001` lines 51-53). -/
def treeOf (xs : List Int) : AVLTree := xs.foldl (fun t x => (add t x).1) {}

namespace JTree

/-- The left branch of `removeNode_`'s replacement search (`part_001` lines
566-588): `r = this.getMaxNode_(node.left)` locates the rightmost node of the
left subtree, counts are decremented from `r` up to the root (the portion of
that walk inside the left subtree is the right spine above `r`), and `r` is
spliced out of its position (`r.parent.right = r.left`, lines 574-581);
`balance_` then starts at `r`'s old parent `b` and walks up through every
spine node (line 625), which is the unwinding recursion here.  Returns the
left subtree with `r` spliced out, together with `r`'s value and `r`'s stored
height (the grafted replacement keeps its own height field until the balance
walk reaches it). -/
def removeMax : JTree → JTree × Int × Int
  | nil => (nil, 0, 0)
  | node v l nil _ h => (l, v, h)
  | node v l r c h =>
      match removeMax r with
      | (r', rv, rh) => (balance_ balFuel (node v l r' (c - 1) h), rv, rh)

/-- Mirror of `removeMax` for the right branch of `removeNode_` (`part_001`
lines 590-612): `r = this.getMinNode_(node.right)` and the splice is
`r.parent.left = r.right`. -/
def removeMin : JTree → JTree × Int × Int
  | nil => (nil, 0, 0)
  | node v nil r _ h => (r, v, h)
  | node v l r c h =>
      match removeMin l with
      | (l', rv, rh) => (balance_ balFuel (node v l' r (c - 1) h), rv, rh)

/-- The descent of `AVLTree.prototype.remove` (`part_001` lines 182-203)
fused with `removeNode_` (lines 557-649) and the upward count/balance walks
that follow a successful removal.  `parentVal`/`side` carry what the parent
pointer provides in the source: the parent's value (for the min/max cache
update `minNode_ = node.parent` on leaf removal, lines 637-643) and which
child the current node is (`isLeftChild`/`isRightChild`); `side = none` means
the node is the root.  Returns the new subtree, the removed value (`none` if
`value` is not present — the tree is returned unchanged then), and the
updated caches.

Case analysis of `removeNode_` for the found node:
* left child present (covers both the two-children and the only-left-child
  cases): the replacement is the maximum of the left subtree; it inherits the
  removed node's children and its decremented count (`r.count = node.count`
  after the decrement walk), and replaces it as the cached max if the removed
  node was the cached max (line 586-587);
* otherwise right child present: mirror with the minimum of the right
  subtree and the min cache (lines 610-611);
* leaf: detached from its parent, the cache moves to the parent if the leaf
  was the cached extremum, and balancing starts at the parent (lines
  634-644); a root leaf clears the whole tree (line 646). -/
def removeDescend (x : Int) :
    JTree → Option Int → Option Bool → Option Int → Option Int →
    JTree × Option Int × Option Int × Option Int
  | nil, _, _, mn, mx => (nil, none, mn, mx)
  | node v l r c h, parentVal, side, mn, mx =>
    if comparator_ v x > 0 then
      match removeDescend x l (some v) (some false) mn mx with
      | (_, none, _, _) => (node v l r c h, none, mn, mx)
      | (l', some rv, mn', mx') => (balance_ balFuel (node v l' r (c - 1) h), some rv, mn', mx')
    else if comparator_ v x < 0 then
      match removeDescend x r (some v) (some true) mn mx with
      | (_, none, _, _) => (node v l r c h, none, mn, mx)
      | (r', some rv, mn', mx') => (balance_ balFuel (node v l r' (c - 1) h), some rv, mn', mx')
    else
      match l, r with
      | nil, nil =>
          match side with
          | none => (nil, some v, none, none)
          | some false => (nil, some v, if mn = some v then parentVal else mn, mx)
          | some true => (nil, some v, mn, if mx = some v then parentVal else mx)
      | nil, _ =>
          match removeMin r with
          | (r', rv, rh) =>
              (balance_ balFuel (node rv nil r' (c - 1) rh), some v,
               if mn = some v then some rv else mn, mx)
      | _, _ =>
          match removeMax l with
          | (l', rv, rh) =>
              (balance_ balFuel (node rv l' r (c - 1) rh), some v,
               mn, if mx = some v then some rv else mx)

end JTree

/-- `AVLTree.prototype.remove` (`part_001` lines 182-203): returns the pair
(updated tree, removed value or `null`). -/
def remove (t : AVLTree) (x : Int) : AVLTree × Option Int :=
  match removeDescend x t.root_ none none t.minNode_ t.maxNode_ with
  | (r', rv, mn', mx') => ({ root_ := r', minNode_ := mn', maxNode_ := mx' }, rv)

/-- The children of the node holding `x`, located by the same comparator
descent as the source's `remove`; `none` when `x` is absent. -/
def findChildren : JTree → Int → Option (JTree × JTree)
  | .nil, _ => none
  | .node v l r _ _, y =>
      if comparator_ v y > 0 then findChildren l y
      else if comparator_ v y < 0 then findChildren r y
      else some (l, r)

/-- `AVLTree.prototype._removeNode` of the *other* variant,
`src/JSAVLTree.js` lines 548-638, reached through `remove` (lines 175-195).
That file declares `var replacementNode;` (line 553) but assigns the located
replacement to a variable `r` instead (`r = this._getMaxNode(node._left);`
line 555, `r = this._getMinNode(node._right);` line 579), so whenever the
node to remove has at least one child the function reads properties of the
still-`undefined` `replacementNode` (line 564 / 588) and throws a
`TypeError`, modelled by `Except.error ()`.  (Before the throw the count
walk `this._traverse(..., replacementNode)` falls back to starting at the
root, whose mutation is lost when the exception aborts the call.)  The leaf
branch (lines 615-637) does not touch `replacementNode` and is identical to
`part_001`, so it is embedded as in `removeDescend`. -/
def removeJS (t : AVLTree) (x : Int) : Except Unit (AVLTree × Option Int) :=
  match removeDescend x t.root_ none none t.minNode_ t.maxNode_ with
  | (r', rv, mn', mx') =>
      match rv with
      | none => .ok (t, none)
      | some rv' =>
          match findChildren t.root_ x with
          | some (.nil, .nil) => .ok ({ root_ := r', minNode_ := mn', maxNode_ := mx' }, some rv')
          | _ => .error ()

/-- `getKthNode_` (`part_001` lines 661-672; `_getNthNode` in
`src/JSAVLTree.js` lines 650-661): order-statistics selection driven by the
stored `count` fields.  The source dereferences `root` unconditionally, so a
recursion that reaches `null` (impossible when the counts are consistent and
the index is in range) is a `TypeError`, modelled by `none`. -/
def getKthNode_ : JTree → Int → Option Int
  | .nil, _ => none
  | .node v l r _ _, k =>
    let numLeft := countOf l
    if k < numLeft then getKthNode_ l k
    else if k = numLeft then some v
    else getKthNode_ r (k - numLeft - 1)

/-- `AVLTree.prototype.getNthValue` (`src/JSAVLTree.js` lines 250-255; named
`getKthValue` in `part_001` lines 260-265): `null` when the index is outside
`[0, count)`, otherwise the selection. -/
def getNthValue (t : AVLTree) (n : Int) : Option Int :=
  if n < 0 ∨ n ≥ getCount t then none
  else getKthNode_ t.root_ n

namespace JTree

/-!
The in-order / reverse-order traversal loops (`part_001` lines 321-363 and
375-417) walk over the node graph following `left`, `right` and `parent`
pointers without mutating the tree.  A node reference is modelled by the
node's *position*: the list of steps from the root (`false` = left child,
`true` = right child).  `parent` is then dropping the last step, and the
reference comparisons (`node.left != previous` etc.) are decidable equality
of positions — two node references are identical exactly when they are the
same position of the (unchanged) tree.
-/

/-- The subtree sitting at a position (`nil` when the position walks off the
tree, i.e. the corresponding pointer would be `null`). -/
def subtreeAt : JTree → List Bool → JTree
  | t, [] => t
  | nil, _ :: _ => nil
  | node _ l _ _ _, false :: p => subtreeAt l p
  | node _ _ r _ _, true :: p => subtreeAt r p

/-- The value stored at a (valid) position; the traversal only reads values
of nodes it stands on, so the `nil` default is never observable there. -/
def valueAt (t : JTree) (p : List Bool) : Int :=
  match subtreeAt t p with
  | nil => 0
  | node v _ _ _ _ => v

/-- `node.left` / `node.right` as an optional position: `some` exactly when
the child pointer is not `null`. -/
def childPos (t : JTree) (p : List Bool) (b : Bool) : Option (List Bool) :=
  match subtreeAt t (p ++ [b]) with
  | nil => none
  | _ => some (p ++ [b])

/-- `node.parent` as an optional position (`none` for the root, whose parent
pointer is `null`). -/
def parentPos (p : List Bool) : Option (List Bool) :=
  match p with
  | [] => none
  | _ => some p.dropLast

/-- One full execution of the in-order traversal loop (`part_001` lines
348-362), fuel-indexed because the loop is governed by pointer chasing, not
structure.  State: `nd` is the JS variable `node` (`none` = `null`), `prev`
is `prev`, and `acc` records the values `func` has been called on, in order.
`func` returning `true` stops the traversal (line 354-356). -/
def inOrderLoop (t : JTree) (func : Int → Bool) :
    Nat → Option (List Bool) → List Bool → List Int → List Int
  | 0, _, _, acc => acc
  | _ + 1, none, _, acc => acc
  | fuel + 1, some pos, prev, acc =>
    let l := childPos t pos false
    let r := childPos t pos true
    if l.isSome && l ≠ some prev && r ≠ some prev then
      inOrderLoop t func fuel l prev acc
    else
      if r ≠ some prev then
        let acc' := acc ++ [valueAt t pos]
        if func (valueAt t pos) then acc'
        else inOrderLoop t func fuel (if r.isSome && r ≠ some prev then r else parentPos pos) pos acc'
      else
        inOrderLoop t func fuel (if r.isSome && r ≠ some prev then r else parentPos pos) pos acc

/-- Mirror of `inOrderLoop`: the reverse-order traversal loop (`part_001`
lines 402-416). -/
def revOrderLoop (t : JTree) (func : Int → Bool) :
    Nat → Option (List Bool) → List Bool → List Int → List Int
  | 0, _, _, acc => acc
  | _ + 1, none, _, acc => acc
  | fuel + 1, some pos, prev, acc =>
    let l := childPos t pos false
    let r := childPos t pos true
    if r.isSome && r ≠ some prev && l ≠ some prev then
      revOrderLoop t func fuel r prev acc
    else
      if l ≠ some prev then
        let acc' := acc ++ [valueAt t pos]
        if func (valueAt t pos) then acc'
        else revOrderLoop t func fuel (if l.isSome && l ≠ some prev then l else parentPos pos) pos acc'
      else
        revOrderLoop t func fuel (if l.isSome && l ≠ some prev then l else parentPos pos) pos acc

/-- The start-node seek of `inOrderTraverse` (`part_001` lines 329-342): a
comparator-guided descent that remembers the last node it moved left from
(or stops at an equal node); `startNode` stays `undefined` (`none`) when the
descent only ever moves right. -/
def seekStart (s : Int) : JTree → List Bool → Option (List Bool) → Option (List Bool)
  | nil, _, best => best
  | node v l r _ _, pos, best =>
      if comparator_ v s > 0 then seekStart s l (pos ++ [false]) (some pos)
      else if comparator_ v s < 0 then seekStart s r (pos ++ [true]) best
      else some pos

/-- The start-node seek of `reverseOrderTraverse` (`part_001` lines 383-396):
the mirror image, remembering the last node the descent moved right from. -/
def seekStartRev (s : Int) : JTree → List Bool → Option (List Bool) → Option (List Bool)
  | nil, _, best => best
  | node v l r _ _, pos, best =>
      if comparator_ v s > 0 then seekStartRev s l (pos ++ [false]) best
      else if comparator_ v s < 0 then seekStartRev s r (pos ++ [true]) (some pos)
      else some pos

/-- JavaScript truthiness of the optional `startValue` argument (`part_001`
line 329, `if (startValue)`): an absent argument and the number `0` are both
falsy. -/
def truthy : Option Int → Bool
  | none => false
  | some v => v ≠ 0

/-- Fuel that dominates the iteration count of the traversal loops. -/
def loopFuel (t : JTree) : Nat := 3 * natSize t + 3

/-- Resolution of a node reference (modelled by its value) back to the
node's position; values are unique in every tree the code builds, so the
position is unique when it exists. -/
def posOf : JTree → Int → Option (List Bool)
  | nil, _ => none
  | node v l r _ _, x =>
      if v = x then some []
      else
        match posOf l x with
        | some p => some (false :: p)
        | none => (posOf r x).map (fun p => true :: p)

end JTree

/-- `AVLTree.prototype.inOrderTraverse` (`part_001` lines 321-363).  An empty
tree returns immediately (lines 323-325).  A truthy `startValue` runs the
seek; a falsy one starts from the cached min node (line 344), whose
reference is resolved to its position with `posOf`.  When the seek never
assigns `startNode` — or the cache reference is `null` on a non-empty tree —
line 348 (`startNode.left`) dereferences `undefined`/`null` and throws a
`TypeError`, modelled by `Except.error ()`.  Otherwise the loop runs with
`prev = startNode.left ? startNode.left : startNode` and the result is the
list of values `func` was called on, in call order. -/
def inOrderTraverse (t : AVLTree) (func : Int → Bool) (startValue : Option Int) :
    Except Unit (List Int) :=
  match t.root_ with
  | .nil => .ok []
  | root =>
      let startNode : Option (List Bool) :=
        if truthy startValue then seekStart (startValue.getD 0) root [] none
        else t.minNode_.bind (posOf root)
      match startNode with
      | none => .error ()
      | some sp =>
          .ok (inOrderLoop root func (loopFuel root) (some sp) ((childPos root sp false).getD sp) [])

/-- `AVLTree.prototype.reverseOrderTraverse` (`part_001` lines 375-417), the
mirror of `inOrderTraverse`: the seek remembers right-moves, the fallback
start is the cached max node, and the loop init is
`prev = startNode.right ? startNode.right : startNode`. -/
def reverseOrderTraverse (t : AVLTree) (func : Int → Bool) (startValue : Option Int) :
    Except Unit (List Int) :=
  match t.root_ with
  | .nil => .ok []
  | root =>
      let startNode : Option (List Bool) :=
        if truthy startValue then seekStartRev (startValue.getD 0) root [] none
        else t.maxNode_.bind (posOf root)
      match startNode with
      | none => .error ()
      | some sp =>
          .ok (revOrderLoop root func (loopFuel root) (some sp) ((childPos root sp true).getD sp) [])

/-- `AVLTree.prototype.getValues` (`part_001` lines 303-309): an in-order
traversal pushing every value (`retVal.push(value)`; `push` is called for
its side effect and the callback returns `undefined`, which is falsy, so the
traversal never stops early). -/
def getValues (t : AVLTree) : List Int :=
  match inOrderTraverse t (fun _ => false) none with
  | .ok l => l
  | .error _ => []

namespace JTree

/-!
Specification-side invariant checkers (§3 of the spec, invariants 1-6).
These read the *actual* tree structure; `heightConsistent` compares the
stored `height` fields against it, `avlBalanced` uses true subtree heights
as the spec's balance invariant does.
-/

/-- True height of a subtree (1 for a single node, matching the source's
height convention where a fresh leaf has `height = 1`). -/
def realHeight : JTree → Int
  | nil => 0
  | node _ l r _ _ => max (realHeight l) (realHeight r) + 1

/-- Invariant 4 of the spec: every stored `height` field equals
`1 + max(height(left), height(right))` (equivalently, the stored heights are
the true heights). -/
def heightConsistent : JTree → Bool
  | nil => true
  | node _ l r _ h =>
      heightConsistent l && heightConsistent r && (h = max (heightOf l) (heightOf r) + 1)

/-- Invariant 3 of the spec: every stored `count` field equals
`1 + count(left) + count(right)`. -/
def countConsistent : JTree → Bool
  | nil => true
  | node _ l r c _ =>
      countConsistent l && countConsistent r && (c = countOf l + countOf r + 1)

/-- Invariant 2 of the spec: for every node the true heights of its two
subtrees differ by at most 1. -/
def avlBalanced : JTree → Bool
  | nil => true
  | node _ l r _ _ =>
      avlBalanced l && avlBalanced r && ((realHeight l - realHeight r).natAbs ≤ 1)

end JTree

/-- Invariants 1 and 5 of the spec: the in-order sequence is strictly
increasing under the comparator (BST ordering plus uniqueness). -/
def BSTOrdered (t : JTree) : Prop := (inorder t).Sorted (· < ·)

/-- Invariant 6 of the spec: the cached min/max references are the in-order
first and last nodes of a non-empty tree, and `null` for the empty tree. -/
def cacheCorrect (t : AVLTree) : Prop :=
  t.minNode_ = (inorder t.root_).head? ∧ t.maxNode_ = (inorder t.root_).getLast?

namespace JTree

/-!
Auxiliary quantities used to reason about the traversal loop: the position
of the leftmost node, the exact number of loop iterations spent inside a
subtree or on the way back up, the values visited on the way up, and the
strictly-below relation between positions.
-/

/-- Position of the leftmost (in-order first) node of a non-empty tree. -/
def leftmostPos : JTree → List Bool
  | nil => []
  | node _ nil _ _ _ => []
  | node _ (node w a b c2 h2) _ _ _ => false :: leftmostPos (node w a b c2 h2)

/-- Number of `inOrderLoop` iterations spent traversing a subtree, from the
iteration that stands on its root coming from above (or starting there) to
the iteration that steps back out to its parent, inclusive. -/
def itersIn : JTree → Nat
  | nil => 0
  | node _ l r _ _ =>
      (if l = nil then 0 else itersIn l + 1) + 1 + (if r = nil then 0 else itersIn r + 1)

/-- Values visited by `inOrderLoop` after it has exited the subtree at the
position whose *reversed* path is `rpos`, on the way up to (and past) the
root: each left-edge on the path contributes its parent's value followed by
the parent's right subtree. -/
def upChain (t : JTree) : List Bool → List Int
  | [] => []
  | b :: rest =>
      if b then upChain t rest
      else
        valueAt t rest.reverse ::
          (inorder (subtreeAt t (rest.reverse ++ [true])) ++ upChain t rest)

/-- Number of `inOrderLoop` iterations spent climbing from the exit of the
subtree at reversed position `rpos` to the final `null` parent of the root. -/
def itersUp (t : JTree) : List Bool → Nat
  | [] => 0
  | b :: rest =>
      if b then 1 + itersUp t rest
      else
        1 + (if subtreeAt t (rest.reverse ++ [true]) = nil then 0
             else itersIn (subtreeAt t (rest.reverse ++ [true])) + 1) + itersUp t rest

/-- `strictBelow q p` holds when `p` is a proper prefix of `q`, i.e. the node
at `q` lies strictly inside the subtree rooted at `p`. -/
def strictBelow : List Bool → List Bool → Bool
  | q, [] => !q.isEmpty
  | [], _ :: _ => false
  | a :: q, b :: p => a = b && strictBelow q p

end JTree

open JTree

/-! ## Claim C1 -/

/-- Claim C1 (refuted; the code is at fault): the spec requires all six
structural invariants after every operation, but already the third `add` of
the sequence `3, 1, 2` breaks invariant 4 (height consistency): inserting
`2` triggers a double rotation (`leftRotate_` on node `1`, then
`rightRotate_` on node `3`), and `balance_` recomputes the height of the
demoted node `3` and of the new subtree root `2` but never the height of
node `1`, which was demoted by the *first* rotation and is off the upward
path.  Node `1` is a leaf yet keeps stored height `2`, and the root absorbs
the stale value into stored height `3` (true height `2`).  The stale height
then blinds the balancer: after continuing with `add 4; add 5; add 6` the
root's subtrees have true heights `1` and `3`, violating invariant 2 (AVL
balance) as well. -/
theorem add_sequence_breaks_height_and_balance_invariants :
    heightConsistent (treeOf [3, 1, 2]).root_ = false
    ∧ (treeOf [3, 1, 2]).root_
        = .node 2 (.node 1 .nil .nil 1 2) (.node 3 .nil .nil 1 1) 3 3
    ∧ avlBalanced (treeOf [3, 1, 2, 4, 5, 6]).root_ = false := by
  refine ⟨by decide, by decide, by decide⟩

/-! ## Claim C2 -/

/-- Claim C2 (the claim matches the intended behaviour, but the code of
`src/JSAVLTree.js` is broken): in the tree `{1, 2}` the node holding `2` is
the root and has a left child, so `_removeNode` takes the
child-bearing branch, reads the never-assigned `replacementNode` (the
locator results were assigned to `r` instead, lines 555/579) and throws a
`TypeError` — modelled by `Except.error ()` — instead of returning `2` and
shrinking the count from 2 to 1.  (The `part_001` variant of `removeNode_`
assigns and uses `r` consistently and does behave as the claim states; see
the C4 theorems, whose scenario exercises it.) -/
theorem remove_with_child_throws :
    getCount (treeOf [2, 1]) = 2 ∧ contains (treeOf [2, 1]) 2 = true
    ∧ removeJS (treeOf [2, 1]) 2 = .error () :=
  ⟨by decide, by decide, rfl⟩

/-! ## Claim C4 -/

/-- Claim C4 (refuted as stated): after building `{1, 2, 3}` (root `2` with
two children) and removing the current root three times the tree is empty —
but `getMinimum()`/`getMaximum()` on the emptied tree are *not*
undefined-safe: `getMinNode_()` returns the `null` cache and `.value` throws
a `TypeError`, modelled by the `none` results below. -/
theorem getMinimum_after_emptying_dereferences_null :
    (treeOf [2, 1, 3]).root_
      = .node 2 (.node 1 .nil .nil 1 1) (.node 3 .nil .nil 1 1) 3 2
    ∧ getCount (remove (remove (remove (treeOf [2, 1, 3]) 2).1 1).1 3).1 = 0
    ∧ getMinimum (remove (remove (remove (treeOf [2, 1, 3]) 2).1 1).1 3).1 = none
    ∧ getMaximum (remove (remove (remove (treeOf [2, 1, 3]) 2).1 1).1 3).1 = none := by
  refine ⟨by decide, by decide, by decide, by decide⟩

/-- Claim C4, amended: starting from `{1, 2, 3}` (root `2` with two
children), repeatedly removing the current root does succeed — each `remove`
returns the removed root value, `getCount()` reaches 0, and a subsequent
`add` reinitializes the tree correctly (root and both caches point to the
new single node) — but `getMinimum`/`getMaximum` on the emptied tree
dereference the `null` cache (a `TypeError`, modelled by `none`) rather than
being undefined-safe. -/
theorem remove_roots_until_empty_then_add_reinitializes :
    (treeOf [2, 1, 3]).root_
      = .node 2 (.node 1 .nil .nil 1 1) (.node 3 .nil .nil 1 1) 3 2
    ∧ remove (treeOf [2, 1, 3]) 2
      = ({ root_ := .node 1 .nil (.node 3 .nil .nil 1 1) 2 2,
           minNode_ := some 1, maxNode_ := some 3 }, some 2)
    ∧ remove (remove (treeOf [2, 1, 3]) 2).1 1
      = ({ root_ := .node 3 .nil .nil 1 1, minNode_ := some 3, maxNode_ := some 3 }, some 1)
    ∧ remove (remove (remove (treeOf [2, 1, 3]) 2).1 1).1 3
      = ({ root_ := .nil, minNode_ := none, maxNode_ := none }, some 3)
    ∧ getCount (remove (remove (remove (treeOf [2, 1, 3]) 2).1 1).1 3).1 = 0
    ∧ getMinimum (remove (remove (remove (treeOf [2, 1, 3]) 2).1 1).1 3).1 = none
    ∧ getMaximum (remove (remove (remove (treeOf [2, 1, 3]) 2).1 1).1 3).1 = none
    ∧ add (remove (remove (remove (treeOf [2, 1, 3]) 2).1 1).1 3).1 5
      = ({ root_ := .node 5 .nil .nil 1 1, minNode_ := some 5, maxNode_ := some 5 }, true) := by
  refine ⟨by decide, by decide, by decide, by decide, by decide, by decide, by decide, by decide⟩

/-! ## Claim C6 -/

/-- Claim C6 (confirmed): inserting `1, 2, 3` in that order produces exactly
the tree with root `2`, left child `1`, right child `3` and `getHeight() = 2`
(the third insertion makes node `1` right-heavy by 2 and the single-rotation
branch of `balance_` fires `leftRotate_` on the root). -/
theorem add_one_two_three_rotates_to_balanced :
    treeOf [1, 2, 3]
      = { root_ := .node 2 (.node 1 .nil .nil 1 1) (.node 3 .nil .nil 1 1) 3 2,
          minNode_ := some 1, maxNode_ := some 3 }
    ∧ getHeight (treeOf [1, 2, 3]) = 2 :=
  ⟨by decide, by decide⟩

/-! ## Claim C7 -/

/-- Claim C7 (confirmed): for every node with a right child
`temp = node(tv, tl, tr, tc, th)`, `leftRotate_` makes `temp` the new
subtree root (the position the node occupied — i.e. the grandparent's child
pointer or the tree's root pointer — now holds `temp`, and the parent
pointers, implicit in the tree structure, follow), with the node as `temp`'s
left child and `temp`'s former left subtree `tl` as the node's new right
subtree; `temp.count` becomes the node's pre-rotation count `c`, the node's
count shrinks to `c - (count(tr) + 1)` where `tr` is the new subtree root's
right subtree, and both stored height fields `h`, `th` are left untouched.
`rightRotate_` is the exact mirror. -/
theorem rotation_frame_effect : ∀ (v tv c h tc th : Int) (l tl tr r : JTree),
    leftRotate_ (.node v l (.node tv tl tr tc th) c h)
      = .node tv (.node v l tl (c - (countOf tr + 1)) h) tr c th
    ∧ rightRotate_ (.node v (.node tv tl tr tc th) r c h)
      = .node tv tl (.node v tr r (c - (countOf tl + 1)) h) c th := by
  intros; exact ⟨rfl, rfl⟩

/-! ## Claim C8 -/

/-- Claim C8 (refuted; the code contradicts its own documentation): the
comment on `getHeight` (`part_001` lines 288-290) promises
`getHeight() <= 1.4405*log2(n+2) - 1.3277`, but after the adds `3, 1, 2`
the stored root height — which is what `getHeight` returns — is `3` while
`n = 3` gives a bound of `1.4405·log2(5) − 1.3277 < 2.04`.  (The stale
height produced by the double rotation, see C1, is the cause; the *true*
height 2 would satisfy the bound.) -/
theorem height_bound_violated :
    getCount (treeOf [3, 1, 2]) = 3 ∧ getHeight (treeOf [3, 1, 2]) = 3 ∧
    ¬ ((getHeight (treeOf [3, 1, 2]) : ℝ) ≤
        1.4405 * Real.logb 2 ((getCount (treeOf [3, 1, 2]) : ℝ) + 2) - 1.3277) := by
  have hh : getHeight (treeOf [3, 1, 2]) = 3 := by decide
  have hc : getCount (treeOf [3, 1, 2]) = 3 := by decide
  refine ⟨hc, hh, ?_⟩
  rw [hh, hc]
  have hlog : Real.logb 2 5 < 7 / 3 := by
    rw [Real.logb_lt_iff_lt_rpow (by norm_num) (by norm_num)]
    have h2 : ((2 : ℝ) ^ ((7 : ℝ) / 3)) ^ (3 : ℕ) = 2 ^ (7 : ℕ) := by
      rw [← Real.rpow_natCast ((2 : ℝ) ^ ((7 : ℝ) / 3)) 3, ← Real.rpow_mul (by norm_num)]
      norm_num
    have h5 : ((5 : ℝ)) ^ (3 : ℕ) < ((2 : ℝ) ^ ((7 : ℝ) / 3)) ^ (3 : ℕ) := by
      rw [h2]; norm_num
    exact lt_of_pow_lt_pow_left₀ 3 (by positivity) h5
  push_cast
  nlinarith [hlog]

/-! ## Claim C9 -/

/-- Claim C9 (confirmed): `clear()` — a public operation absent from the
spec's interface table — nulls the root and both caches, after which
`getCount()` and `getHeight()` are 0, `contains` is false for every value
and `getValues()` is empty, for every starting tree. -/
theorem clear_resets_tree : ∀ (t : AVLTree) (x : Int),
    clear t = { root_ := .nil, minNode_ := none, maxNode_ := none }
    ∧ getCount (clear t) = 0 ∧ getHeight (clear t) = 0
    ∧ contains (clear t) x = false ∧ getValues (clear t) = [] := by
  intros; exact ⟨rfl, rfl, rfl, rfl, rfl⟩

/-! ## Claim C10 -/

/-- When every value of the subtree is below the start value the in-order
seek only ever takes the right branch, which never assigns `startNode`. -/
theorem seekStart_all_lt (s : Int) :
    ∀ (t : JTree) (pos : List Bool) (best : Option (List Bool)),
      (∀ x ∈ inorder t, x < s) → seekStart s t pos best = best := by
  intro t
  induction t with
  | nil => intro pos best _; rfl
  | node v l r c h ihl ihr =>
      intro pos best hall
      have hv : v < s := hall v (by simp [inorder])
      have h1 : ¬ comparator_ v s > 0 := by simp [comparator_]; omega
      have h2 : comparator_ v s < 0 := by simp [comparator_]; omega
      rw [seekStart, if_neg h1, if_pos h2]
      exact ihr _ _ (fun x hx => hall x (by simp [inorder, hx]))

/-- Mirror: when every value of the subtree is above the start value the
reverse-order seek only ever takes the left branch, never assigning. -/
theorem seekStartRev_all_gt (s : Int) :
    ∀ (t : JTree) (pos : List Bool) (best : Option (List Bool)),
      (∀ x ∈ inorder t, s < x) → seekStartRev s t pos best = best := by
  intro t
  induction t with
  | nil => intro pos best _; rfl
  | node v l r c h ihl ihr =>
      intro pos best hall
      have hv : s < v := hall v (by simp [inorder])
      have h1 : comparator_ v s > 0 := by simp [comparator_]; omega
      rw [seekStartRev, if_pos h1]
      exact ihl _ _ (fun x hx => hall x (by simp [inorder, hx]))

/-- Claim C10 (confirmed): on a non-empty tree, a truthy `startValue` that
compares strictly greater than every stored value makes `inOrderTraverse`'s
start-node seek return without ever assigning `startNode`, and the loop
initialisation `startNode.left` then dereferences `undefined` — a runtime
`TypeError`, modelled by `Except.error ()` — so the traversal does not
return silently without visiting any node.  Symmetrically,
`reverseOrderTraverse` fails when the truthy `startValue` is strictly less
than every stored value.  A falsy `startValue` such as `0` is instead
treated exactly as if no start value had been supplied. -/
theorem traverse_start_past_extremum_crashes :
    ∀ (t : AVLTree) (f : Int → Bool) (s : Int),
      (t.root_ ≠ .nil → (∀ x ∈ inorder t.root_, x < s) → s ≠ 0 →
        inOrderTraverse t f (some s) = .error ())
      ∧ (t.root_ ≠ .nil → (∀ x ∈ inorder t.root_, s < x) → s ≠ 0 →
        reverseOrderTraverse t f (some s) = .error ())
      ∧ inOrderTraverse t f (some 0) = inOrderTraverse t f none
      ∧ reverseOrderTraverse t f (some 0) = reverseOrderTraverse t f none := by
  intro t f s
  refine ⟨?_, ?_, ?_, ?_⟩
  · intro hne hall hs
    rw [inOrderTraverse]
    cases ht : t.root_ with
    | nil => exact absurd ht hne
    | node v l r c h =>
        have htr : truthy (some s) = true := by simp [truthy, hs]
        rw [htr]
        simp only [if_true, Option.getD]
        rw [seekStart_all_lt s _ [] none (by rw [← ht]; exact hall)]
  · intro hne hall hs
    rw [reverseOrderTraverse]
    cases ht : t.root_ with
    | nil => exact absurd ht hne
    | node v l r c h =>
        have htr : truthy (some s) = true := by simp [truthy, hs]
        rw [htr]
        simp only [if_true, Option.getD]
        rw [seekStartRev_all_gt s _ [] none (by rw [← ht]; exact hall)]
  · rw [inOrderTraverse, inOrderTraverse]
    cases t.root_ <;> simp [truthy]
  · rw [reverseOrderTraverse, reverseOrderTraverse]
    cases t.root_ <;> simp [truthy]

/-- Concrete instantiations of `traverse_start_past_extremum_crashes` on the
one-node tree `{1}`, discharging every hypothesis: start value `5` (greater
than every stored value) crashes the forward traversal, start value `-5`
(less than every stored value) crashes the backward one. -/
theorem traverse_start_past_extremum_crashes_witness :
    inOrderTraverse (treeOf [1]) (fun _ => false) (some 5) = .error ()
    ∧ reverseOrderTraverse (treeOf [1]) (fun _ => false) (some (-5)) = .error () :=
  ⟨(traverse_start_past_extremum_crashes (treeOf [1]) (fun _ => false) 5).1
      (by decide) (by decide) (by decide),
   (traverse_start_past_extremum_crashes (treeOf [1]) (fun _ => false) (-5)).2.1
      (by decide) (by decide) (by decide)⟩


/-! ## Claim C3

Supporting lemmas: the rotations, the height-fixing writes and hence the
whole `balance_` walk preserve both the in-order value sequence and the
root's stored `count`; membership in a sorted in-order sequence is decided
by the comparator descent; and the two behaviours of `addNode` (fresh value
inserted, duplicate rejected).
-/

theorem inorder_leftRotate (t : JTree) : inorder (leftRotate_ t) = inorder t := by
  match t with
  | .nil => rfl
  | .node v l .nil c h => rfl
  | .node v l (.node tv tl tr tc th) c h => simp [leftRotate_, inorder]

theorem inorder_rightRotate (t : JTree) : inorder (rightRotate_ t) = inorder t := by
  match t with
  | .nil => rfl
  | .node v .nil r c h => rfl
  | .node v (.node tv tl tr tc th) r c h => simp [rightRotate_, inorder]

theorem inorder_fixRightChildHeight (t : JTree) :
    inorder (fixRightChildHeight t) = inorder t := by
  match t with
  | .nil => rfl
  | .node v l .nil c h => rfl
  | .node v l (.node tv tl tr tc th) c h => rfl

theorem inorder_fixLeftChildHeight (t : JTree) :
    inorder (fixLeftChildHeight t) = inorder t := by
  match t with
  | .nil => rfl
  | .node v .nil r c h => rfl
  | .node v (.node tv tl tr tc th) r c h => rfl

theorem countOf_leftRotate (t : JTree) : countOf (leftRotate_ t) = countOf t := by
  match t with
  | .nil => rfl
  | .node v l .nil c h => rfl
  | .node v l (.node tv tl tr tc th) c h => rfl

theorem countOf_rightRotate (t : JTree) : countOf (rightRotate_ t) = countOf t := by
  match t with
  | .nil => rfl
  | .node v .nil r c h => rfl
  | .node v (.node tv tl tr tc th) r c h => rfl

theorem countOf_fixRightChildHeight (t : JTree) :
    countOf (fixRightChildHeight t) = countOf t := by
  match t with
  | .nil => rfl
  | .node v l .nil c h => rfl
  | .node v l (.node tv tl tr tc th) c h => rfl

theorem countOf_fixLeftChildHeight (t : JTree) :
    countOf (fixLeftChildHeight t) = countOf t := by
  match t with
  | .nil => rfl
  | .node v .nil r c h => rfl
  | .node v (.node tv tl tr tc th) r c h => rfl

theorem inorder_balance_ : ∀ (fuel : Nat) (t : JTree), inorder (balance_ fuel t) = inorder t := by
  intro fuel
  induction fuel with
  | zero => intro t; rfl
  | succ n ih =>
      intro t
      match t with
      | .nil => rfl
      | .node v l r c h =>
          simp only [balance_]
          split_ifs with h1 hd h2 hd2
          · rw [ih, inorder_fixRightChildHeight, inorder_rightRotate]
            simp [inorder, inorder_leftRotate]
          · rw [ih, inorder_fixRightChildHeight, inorder_rightRotate]
          · rw [ih, inorder_fixLeftChildHeight, inorder_leftRotate]
            simp [inorder, inorder_rightRotate]
          · rw [ih, inorder_fixLeftChildHeight, inorder_leftRotate]
          · rfl

theorem countOf_balance_ : ∀ (fuel : Nat) (t : JTree), countOf (balance_ fuel t) = countOf t := by
  intro fuel
  induction fuel with
  | zero => intro t; rfl
  | succ n ih =>
      intro t
      match t with
      | .nil => rfl
      | .node v l r c h =>
          simp only [balance_]
          split_ifs with h1 hd h2 hd2
          · rw [ih, countOf_fixRightChildHeight, countOf_rightRotate]; rfl
          · rw [ih, countOf_fixRightChildHeight, countOf_rightRotate]
          · rw [ih, countOf_fixLeftChildHeight, countOf_leftRotate]; rfl
          · rw [ih, countOf_fixLeftChildHeight, countOf_leftRotate]
          · rfl

theorem mem_split_left {il ir : List Int} {v x : Int}
    (hs : (il ++ v :: ir).Sorted (· < ·)) (hx : x < v) :
    x ∈ il ++ v :: ir ↔ x ∈ il := by
  have hvir : ∀ b ∈ ir, v < b := (List.pairwise_cons.mp (List.pairwise_append.mp hs).2.1).1
  rw [List.mem_append, List.mem_cons]
  constructor
  · rintro (hmem | rfl | hmem)
    · exact hmem
    · omega
    · exact absurd (hvir _ hmem) (by omega)
  · exact fun hmem => Or.inl hmem

theorem mem_split_right {il ir : List Int} {v x : Int}
    (hs : (il ++ v :: ir).Sorted (· < ·)) (hx : v < x) :
    x ∈ il ++ v :: ir ↔ x ∈ ir := by
  have hilv : ∀ a ∈ il, a < v :=
    fun a ha => (List.pairwise_append.mp hs).2.2 a ha v (List.mem_cons_self _ _)
  rw [List.mem_append, List.mem_cons]
  constructor
  · rintro (hmem | rfl | hmem)
    · exact absurd (hilv _ hmem) (by omega)
    · omega
    · exact hmem
  · exact fun hmem => Or.inr (Or.inr hmem)

theorem containsNode_iff_mem (x : Int) :
    ∀ (t : JTree), (inorder t).Sorted (· < ·) → (containsNode t x = true ↔ x ∈ inorder t) := by
  intro t
  induction t with
  | nil => intro _; simp [containsNode, inorder]
  | node v l r c h ihl ihr =>
      intro hs
      have hsl : (inorder l).Sorted (· < ·) := (List.pairwise_append.mp hs).1
      have hsr : (inorder r).Sorted (· < ·) :=
        (List.pairwise_cons.mp (List.pairwise_append.mp hs).2.1).2
      rcases lt_trichotomy x v with hlt | heq | hgt
      · have hc1 : comparator_ v x > 0 := by simp [comparator_]; omega
        rw [containsNode, if_pos hc1, ihl hsl, inorder, mem_split_left hs hlt]
      · subst heq
        have hc1 : ¬ comparator_ x x > 0 := by simp [comparator_]
        have hc2 : ¬ comparator_ x x < 0 := by simp [comparator_]
        rw [containsNode, if_neg hc1, if_neg hc2]
        simp [inorder]
      · have hc1 : ¬ comparator_ v x > 0 := by simp [comparator_]; omega
        have hc2 : comparator_ v x < 0 := by simp [comparator_]; omega
        rw [containsNode, if_neg hc1, if_pos hc2, ihr hsr, inorder, mem_split_right hs hgt]

theorem addNode_inserts (x : Int) :
    ∀ (t : JTree) (mn mx : Option Int),
      (inorder t).Sorted (· < ·) → x ∉ inorder t → t ≠ .nil →
      (addNode x t mn mx).2.1 = true
      ∧ countOf (addNode x t mn mx).1 = countOf t + 1
      ∧ (∀ y, y ∈ inorder (addNode x t mn mx).1 ↔ y = x ∨ y ∈ inorder t)
      ∧ (inorder (addNode x t mn mx).1).Sorted (· < ·) := by
  intro t
  induction t with
  | nil => intro mn mx _ _ hne; exact absurd rfl hne
  | node v l r c h ihl ihr =>
      intro mn mx hs hmem _
      have hsl : (inorder l).Sorted (· < ·) := (List.pairwise_append.mp hs).1
      have hsvr : (v :: inorder r).Sorted (· < ·) := (List.pairwise_append.mp hs).2.1
      have hsr : (inorder r).Sorted (· < ·) := (List.pairwise_cons.mp hsvr).2
      have hvr : ∀ b ∈ inorder r, v < b := (List.pairwise_cons.mp hsvr).1
      have hlv : ∀ a ∈ inorder l, a < v :=
        fun a ha => (List.pairwise_append.mp hs).2.2 a ha v (List.mem_cons_self _ _)
      have hlr : ∀ a ∈ inorder l, ∀ b ∈ inorder r, a < b :=
        fun a ha b hb => (List.pairwise_append.mp hs).2.2 a ha b (by simp [hb])
      rcases lt_trichotomy x v with hlt | heq | hgt
      · have hc1 : comparator_ v x > 0 := by simp [comparator_]; omega
        have hxl : x ∉ inorder l := fun hx => hmem (by simp [inorder, hx])
        by_cases hl : l = .nil
        · subst hl
          rw [addNode, if_pos hc1, if_pos rfl]
          refine ⟨rfl, ?_, ?_, ?_⟩
          · simp only [countOf_balance_]
            rfl
          · intro y
            simp only [inorder_balance_]
            simp [inorder]
            try tauto
          · simp only [inorder_balance_]
            show ((inorder (.node x .nil .nil 1 1) ++ v :: inorder r)).Sorted (· < ·)
            simp only [inorder, List.nil_append, List.singleton_append]
            refine List.pairwise_cons.mpr ⟨?_, hsvr⟩
            intro b hb
            rcases List.mem_cons.mp hb with rfl | hb2
            · exact hlt
            · exact lt_trans hlt (hvr _ hb2)
        · obtain ⟨hins, hcnt, hmm, hsort⟩ := ihl mn mx hsl hxl hl
          rw [addNode, if_pos hc1, if_neg hl]
          simp only [hins, if_true]
          refine ⟨by trivial, ?_, ?_, ?_⟩
          · simp only [countOf_balance_]
            rfl
          · intro y
            simp only [inorder_balance_]
            simp only [inorder, List.mem_append, List.mem_cons] at hmm ⊢
            rcases hmm y with hy
            tauto
          · simp only [inorder_balance_]
            show ((inorder (addNode x l mn mx).1 ++ v :: inorder r)).Sorted (· < ·)
            refine List.pairwise_append.mpr ⟨hsort, hsvr, ?_⟩
            intro a' ha' b' hb'
            have ha2 := (hmm a').mp ha'
            rcases List.mem_cons.mp hb' with rfl | hb2
            · rcases ha2 with rfl | ha3
              · exact hlt
              · exact hlv _ ha3
            · rcases ha2 with rfl | ha3
              · exact lt_trans hlt (hvr _ hb2)
              · exact hlr _ ha3 _ hb2
      · exact absurd (by simp [inorder, heq]) hmem
      · have hc1 : ¬ comparator_ v x > 0 := by simp [comparator_]; omega
        have hc2 : comparator_ v x < 0 := by simp [comparator_]; omega
        have hxr : x ∉ inorder r := fun hx => hmem (by simp [inorder, hx])
        by_cases hr : r = .nil
        · subst hr
          rw [addNode, if_neg hc1, if_pos hc2, if_pos rfl]
          refine ⟨rfl, ?_, ?_, ?_⟩
          · simp only [countOf_balance_]
            rfl
          · intro y
            simp only [inorder_balance_]
            simp [inorder]
            try tauto
          · simp only [inorder_balance_]
            show ((inorder l ++ v :: inorder (.node x .nil .nil 1 1))).Sorted (· < ·)
            simp only [inorder, List.nil_append]
            refine List.pairwise_append.mpr ⟨hsl, ?_, ?_⟩
            · exact List.pairwise_cons.mpr ⟨by simpa using hgt, List.sorted_singleton x⟩
            · intro a' ha' b' hb'
              rcases List.mem_cons.mp hb' with rfl | hb2
              · exact hlv _ ha'
              · simp at hb2
                subst hb2
                exact lt_trans (hlv _ ha') hgt
        · obtain ⟨hins, hcnt, hmm, hsort⟩ := ihr mn mx hsr hxr hr
          rw [addNode, if_neg hc1, if_pos hc2, if_neg hr]
          simp only [hins, if_true]
          refine ⟨by trivial, ?_, ?_, ?_⟩
          · simp only [countOf_balance_]
            rfl
          · intro y
            simp only [inorder_balance_]
            simp only [inorder, List.mem_append, List.mem_cons] at hmm ⊢
            rcases hmm y with hy
            tauto
          · simp only [inorder_balance_]
            show ((inorder l ++ v :: inorder (addNode x r mn mx).1)).Sorted (· < ·)
            refine List.pairwise_append.mpr ⟨hsl, ?_, ?_⟩
            · refine List.pairwise_cons.mpr ⟨?_, hsort⟩
              intro b' hb'
              rcases (hmm b').mp hb' with rfl | hb2
              · exact hgt
              · exact hvr _ hb2
            · intro a' ha' b' hb'
              rcases List.mem_cons.mp hb' with rfl | hb2
              · exact hlv _ ha'
              · rcases (hmm b').mp hb2 with rfl | hb3
                · exact lt_trans (hlv _ ha') hgt
                · exact hlr _ ha' _ hb3

theorem addNode_duplicate (x : Int) :
    ∀ (t : JTree) (mn mx : Option Int),
      (inorder t).Sorted (· < ·) → x ∈ inorder t →
      addNode x t mn mx = (t, false, mn, mx) := by
  intro t
  induction t with
  | nil => intro mn mx _ hmem; simp [inorder] at hmem
  | node v l r c h ihl ihr =>
      intro mn mx hs hmem
      have hsl : (inorder l).Sorted (· < ·) := (List.pairwise_append.mp hs).1
      have hsr : (inorder r).Sorted (· < ·) :=
        (List.pairwise_cons.mp (List.pairwise_append.mp hs).2.1).2
      rcases lt_trichotomy x v with hlt | heq | hgt
      · have hc1 : comparator_ v x > 0 := by simp [comparator_]; omega
        have hxl : x ∈ inorder l := (mem_split_left hs hlt).mp hmem
        have hl : l ≠ .nil := by
          intro hle; rw [hle] at hxl; simp [inorder] at hxl
        rw [addNode, if_pos hc1, if_neg hl]
        simp [ihl mn mx hsl hxl]
      · have hc1 : ¬ comparator_ v x > 0 := by simp [comparator_]; omega
        have hc2 : ¬ comparator_ v x < 0 := by simp [comparator_]; omega
        rw [addNode, if_neg hc1, if_neg hc2]
      · have hc1 : ¬ comparator_ v x > 0 := by simp [comparator_]; omega
        have hc2 : comparator_ v x < 0 := by simp [comparator_]; omega
        have hxr : x ∈ inorder r := (mem_split_right hs hgt).mp hmem
        have hr : r ≠ .nil := by
          intro hre; rw [hre] at hxr; simp [inorder] at hxr
        rw [addNode, if_neg hc1, if_pos hc2, if_neg hr]
        simp [ihr mn mx hsr hxr]

/-- Claim C3 (confirmed): for every tree satisfying the spec's ordering and
uniqueness invariants (1 and 5: the in-order sequence is strictly
increasing) and every value `v` not yet present, `add v` returns `true`,
`getCount()` grows by exactly 1, `contains v` holds immediately afterwards,
and a second `add v` returns `false` leaving the tree — structure, stored
fields and both caches — completely unchanged; so `add v` twice returns
`true` then `false` with `getCount()` increasing by exactly 1 overall. -/
theorem add_inserts_then_rejects_duplicate :
    ∀ (t : AVLTree) (v : Int),
      (inorder t.root_).Sorted (· < ·) → v ∉ inorder t.root_ →
      (add t v).2 = true
      ∧ getCount (add t v).1 = getCount t + 1
      ∧ contains (add t v).1 v = true
      ∧ add (add t v).1 v = ((add t v).1, false) := by
  intro t v hs hmem
  cases ht : t.root_ with
  | nil =>
      have hcnt0 : getCount t = 0 := by rw [getCount, ht]; rfl
      refine ⟨?_, ?_, ?_, ?_⟩
      · simp only [add, ht]
      · simp only [add, ht, getCount, hcnt0]
        rfl
      · simp only [add, ht, contains, containsNode, comparator_]
        simp
      · simp only [add, ht]
        have hdup : addNode v (.node v .nil .nil 1 1) (some v) (some v)
            = (.node v .nil .nil 1 1, false, some v, some v) :=
          addNode_duplicate v _ _ _ (List.sorted_singleton v) (by simp [inorder])
        simp only [add, hdup]
  | node w l r c h =>
      rw [ht] at hs hmem
      obtain ⟨hins, hcnt, hmm, hsort⟩ :=
        addNode_inserts v (.node w l r c h) t.minNode_ t.maxNode_ hs hmem (by simp)
      rcases hadd : addNode v (.node w l r c h) t.minNode_ t.maxNode_ with ⟨r', ins, mn', mx'⟩
      rw [hadd] at hins hcnt hmm hsort
      simp only at hins hcnt hmm hsort
      subst hins
      have hne : r' ≠ .nil := by
        intro hr
        have := (hmm v).mpr (Or.inl rfl)
        rw [hr] at this
        simp [inorder] at this
      have hstep : add t v = ({ root_ := r', minNode_ := mn', maxNode_ := mx' }, true) := by
        simp only [add, ht, hadd]
      refine ⟨?_, ?_, ?_, ?_⟩
      · rw [hstep]
      · rw [hstep, getCount, getCount, ht]
        simpa using hcnt
      · rw [hstep]
        simp only [contains]
        exact (containsNode_iff_mem v r' hsort).mpr ((hmm v).mpr (Or.inl rfl))
      · rw [hstep]
        cases hr' : r' with
        | nil => exact absurd hr' hne
        | node w2 l2 r2 c2 h2 =>
            have hdup : addNode v (.node w2 l2 r2 c2 h2) mn' mx'
                = (.node w2 l2 r2 c2 h2, false, mn', mx') := by
              refine addNode_duplicate v _ _ _ ?_ ?_
              · rw [← hr']; exact hsort
              · rw [← hr']; exact (hmm v).mpr (Or.inl rfl)
            simp only [add, hdup]

/-- Concrete instantiation of `add_inserts_then_rejects_duplicate`: adding
`5` to the one-node tree `{2}`, with both hypotheses discharged by
evaluation. -/
theorem add_inserts_then_rejects_duplicate_witness :
    (inorder (treeOf [2]).root_).Sorted (· < ·)
    ∧ (5 : Int) ∉ inorder (treeOf [2]).root_
    ∧ ((add (treeOf [2]) 5).2 = true
       ∧ getCount (add (treeOf [2]) 5).1 = getCount (treeOf [2]) + 1
       ∧ contains (add (treeOf [2]) 5).1 5 = true
       ∧ add (add (treeOf [2]) 5).1 5 = ((add (treeOf [2]) 5).1, false)) :=
  ⟨by decide, by decide,
   add_inserts_then_rejects_duplicate (treeOf [2]) 5 (by decide) (by decide)⟩


/-! ## Claim C5

Supporting development.  First the order-statistics side: with consistent
`count` fields, `getKthNode_` selects exactly the `k`-th element of the
in-order sequence.  Then the traversal side: the parent-pointer loop of
`inOrderTraverse`, started on the leftmost node, visits exactly the
in-order sequence.  The loop is characterised by two exact-fuel lemmas —
`inOrderLoop_subtree` (entering a subtree traverses it in-order and exits
to its parent) and `inOrderLoop_climb` (after a subtree is exhausted the
loop climbs the path back to the root, visiting each ancestor reached from
its left child followed by that ancestor's right subtree) — glued together
by the decomposition of the in-order sequence along the leftmost path.
-/

theorem countOf_eq_length (t : JTree) (hc : countConsistent t = true) :
    countOf t = ((inorder t).length : Int) := by
  induction t with
  | nil => rfl
  | node v l r c h ihl ihr =>
      simp only [countConsistent, Bool.and_eq_true, decide_eq_true_eq] at hc
      obtain ⟨⟨hcl, hcr⟩, hceq⟩ := hc
      simp only [countOf, inorder, List.length_append, List.length_cons]
      rw [hceq, ihl hcl, ihr hcr]
      push_cast
      ring

theorem getKthNode_eq_inorder_get :
    ∀ (t : JTree) (k : Int), countConsistent t = true → 0 ≤ k → k < countOf t →
      getKthNode_ t k = (inorder t)[k.toNat]? := by
  intro t
  induction t with
  | nil => intro k _ h0 hlt; simp [countOf] at hlt; omega
  | node v l r c h ihl ihr =>
      intro k hc h0 hlt
      simp only [countConsistent, Bool.and_eq_true, decide_eq_true_eq] at hc
      obtain ⟨⟨hcl, hcr⟩, hceq⟩ := hc
      have hlen : countOf l = ((inorder l).length : Int) := countOf_eq_length l hcl
      rw [getKthNode_]
      rcases lt_trichotomy k (countOf l) with hk | hk | hk
      · rw [if_pos hk, ihl k hcl h0 hk]
        show _ = (inorder l ++ v :: inorder r)[k.toNat]?
        rw [List.getElem?_append_left (by omega : k.toNat < (inorder l).length)]
      · rw [if_neg (by omega), if_pos hk]
        show _ = (inorder l ++ v :: inorder r)[k.toNat]?
        rw [List.getElem?_append_right (by omega : (inorder l).length ≤ k.toNat)]
        have : k.toNat - (inorder l).length = 0 := by omega
        rw [this]
        simp
      · rw [if_neg (by omega), if_neg (by omega)]
        have hcnt : countOf (node v l r c h) = countOf l + countOf r + 1 := by
          simp [countOf, hceq]
        have hrange : k - countOf l - 1 < countOf r := by
          rw [hcnt] at hlt; omega
        rw [ihr (k - countOf l - 1) hcr (by omega) hrange]
        show _ = (inorder l ++ v :: inorder r)[k.toNat]?
        rw [List.getElem?_append_right (by omega : (inorder l).length ≤ k.toNat)]
        have h1 : k.toNat - (inorder l).length = (k - countOf l).toNat := by omega
        rw [h1]
        have h2 : (k - countOf l).toNat = (k - countOf l - 1).toNat + 1 := by omega
        rw [h2]
        simp

theorem subtreeAt_nil_any : ∀ (q : List Bool), subtreeAt .nil q = .nil := by
  intro q; cases q <;> rfl

theorem subtreeAt_append (t : JTree) :
    ∀ (p q : List Bool), subtreeAt t (p ++ q) = subtreeAt (subtreeAt t p) q := by
  intro p
  induction p generalizing t with
  | nil => intro q; simp [subtreeAt]
  | cons b p ih =>
      intro q
      cases t with
      | nil => simp [subtreeAt_nil_any]
      | node v l r c h => cases b <;> simp [subtreeAt] <;> rw [ih]

theorem parentPos_concat (p : List Bool) (b : Bool) : parentPos (p ++ [b]) = some p := by
  cases p with
  | nil => rfl
  | cons x xs =>
      show some ((x :: (xs ++ [b])).dropLast) = some (x :: xs)
      rw [← List.cons_append, List.dropLast_concat]

theorem strictBelow_self : ∀ (p : List Bool), strictBelow p p = false := by
  intro p
  induction p with
  | nil => rfl
  | cons b p ih => simp [strictBelow, ih]

theorem strictBelow_concat_self : ∀ (p : List Bool) (b : Bool), strictBelow (p ++ [b]) p = true := by
  intro p
  induction p with
  | nil => intro b; simp [strictBelow]
  | cons a p ih => intro b; simp [strictBelow, ih]

theorem strictBelow_length : ∀ (q p : List Bool), strictBelow q p = true → p.length < q.length := by
  intro q
  induction q with
  | nil =>
      intro p h
      cases p with
      | nil => simp [strictBelow] at h
      | cons b p => simp [strictBelow] at h
  | cons a q ih =>
      intro p h
      cases p with
      | nil => simp
      | cons b p =>
          simp only [strictBelow, Bool.and_eq_true, decide_eq_true_eq] at h
          have := ih p h.2
          simp
          omega

theorem strictBelow_of_concat : ∀ (q p : List Bool) (b : Bool),
    strictBelow q (p ++ [b]) = true → strictBelow q p = true := by
  intro q
  induction q with
  | nil =>
      intro p b h
      cases p with
      | nil => simp [strictBelow] at h
      | cons a p => simp [strictBelow] at h
  | cons a q ih =>
      intro p b h
      cases p with
      | nil => simp [strictBelow]
      | cons x p =>
          simp only [List.cons_append, strictBelow, Bool.and_eq_true, decide_eq_true_eq] at h ⊢
          exact ⟨h.1, ih p b h.2⟩

theorem ne_concat_of_not_strictBelow {q p : List Bool} (h : strictBelow q p = false) (b : Bool) :
    q ≠ p ++ [b] := by
  intro he
  rw [he, strictBelow_concat_self] at h
  simp at h

theorem inOrderLoop_none (t : JTree) (f : Int → Bool) :
    ∀ (fuel : Nat) (prev : List Bool) (acc : List Int),
      inOrderLoop t f fuel none prev acc = acc := by
  intro fuel prev acc
  cases fuel <;> rfl

theorem strictBelow_concat_false {q p : List Bool} (h : strictBelow q p = false) (b : Bool) :
    strictBelow q (p ++ [b]) = false := by
  cases hsb : strictBelow q (p ++ [b]) with
  | false => rfl
  | true => rw [strictBelow_of_concat q p b hsb] at h; simp at h

theorem strictBelow_extension_false (p : List Bool) (b : Bool) :
    strictBelow p (p ++ [b]) = false := by
  cases hsb : strictBelow p (p ++ [b]) with
  | false => rfl
  | true =>
      have := strictBelow_length _ _ hsb
      simp at this

theorem childPos_of_subtree {t : JTree} {pos : List Bool} {v : Int} {l r : JTree} {c h : Int}
    (hp : subtreeAt t pos = .node v l r c h) (b : Bool) :
    childPos t pos b = if (if b then r else l) = .nil then none else some (pos ++ [b]) := by
  rw [childPos, subtreeAt_append, hp]
  cases b <;> cases l <;> cases r <;> simp [subtreeAt]

theorem valueAt_of_subtree {t : JTree} {pos : List Bool} {v : Int} {l r : JTree} {c h : Int}
    (hp : subtreeAt t pos = .node v l r c h) : valueAt t pos = v := by
  rw [valueAt, hp]

theorem inOrderLoop_succ (t : JTree) (f : Int → Bool) (n : Nat) (pos prev : List Bool)
    (acc : List Int) :
    inOrderLoop t f (n + 1) (some pos) prev acc =
      (if (childPos t pos false).isSome && childPos t pos false ≠ some prev
            && childPos t pos true ≠ some prev then
         inOrderLoop t f n (childPos t pos false) prev acc
       else
         if childPos t pos true ≠ some prev then
           if f (valueAt t pos) then acc ++ [valueAt t pos]
           else
             inOrderLoop t f n
               (if (childPos t pos true).isSome && childPos t pos true ≠ some prev then
                  childPos t pos true
                else parentPos pos) pos (acc ++ [valueAt t pos])
         else
           inOrderLoop t f n
             (if (childPos t pos true).isSome && childPos t pos true ≠ some prev then
                childPos t pos true
              else parentPos pos) pos acc) := rfl

theorem inOrderLoop_exit_right (t : JTree) {pos : List Bool} {v : Int} {l r : JTree} {c h : Int}
    (hp : subtreeAt t pos = .node v l r c h) (hr : r ≠ .nil) (fuel : Nat) (acc : List Int) :
    inOrderLoop t (fun _ => false) (fuel + 1) (some pos) (pos ++ [true]) acc
      = inOrderLoop t (fun _ => false) fuel (parentPos pos) pos acc := by
  have hrc : childPos t pos true = some (pos ++ [true]) := by
    rw [childPos_of_subtree hp true]; simp [hr]
  rw [inOrderLoop_succ]
  rw [if_neg (by simp [hrc]), if_neg (by simp [hrc]), if_neg (by simp [hrc])]

theorem inOrderLoop_subtree (t : JTree) :
    ∀ (s : JTree) (pos q : List Bool) (fuel : Nat) (acc : List Int),
      subtreeAt t pos = s → s ≠ .nil → strictBelow q pos = false →
      inOrderLoop t (fun _ => false) (itersIn s + fuel) (some pos) q acc
        = inOrderLoop t (fun _ => false) fuel (parentPos pos) pos (acc ++ inorder s) := by
  intro s
  induction s with
  | nil => intro pos q fuel acc _ hne _; exact absurd rfl hne
  | node v l r c h ihl ihr =>
      intro pos q fuel acc hp hne hq
      have hval : valueAt t pos = v := valueAt_of_subtree hp
      have hqf : pos ++ [false] ≠ q := (ne_concat_of_not_strictBelow hq false).symm
      have hqt : pos ++ [true] ≠ q := (ne_concat_of_not_strictBelow hq true).symm
      have hpl : subtreeAt t (pos ++ [false]) = l := by
        rw [subtreeAt_append, hp]; simp [subtreeAt]
      have hpr : subtreeAt t (pos ++ [true]) = r := by
        rw [subtreeAt_append, hp]; simp [subtreeAt]
      have hsbt : strictBelow pos (pos ++ [true]) = false := strictBelow_extension_false pos true
      by_cases hl : l = .nil
      · -- left child absent: the entry iteration visits v at once
        have hlcn : childPos t pos false = none := by
          rw [childPos_of_subtree hp false]; simp [hl]
        by_cases hr : r = .nil
        · have harith : itersIn (JTree.node v l r c h) + fuel = fuel + 1 := by
            simp [itersIn, hl, hr]; omega
          rw [harith, inOrderLoop_succ]
          have hrcn : childPos t pos true = none := by
            rw [childPos_of_subtree hp true]; simp [hr]
          rw [if_neg (by simp [hlcn]), if_pos (by simp [hrcn]), hval]
          simp only [if_neg (by simp : ¬ false = true), hrcn]
          rw [if_neg (by simp)]
          have : acc ++ [v] = acc ++ inorder (JTree.node v l r c h) := by
            simp [inorder, hl, hr]
          rw [this]
        · have hrcs : childPos t pos true = some (pos ++ [true]) := by
            rw [childPos_of_subtree hp true]; simp [hr]
          have harith : itersIn (JTree.node v l r c h) + fuel
              = (itersIn r + (fuel + 1)) + 1 := by
            simp [itersIn, hl, hr]; omega
          rw [harith, inOrderLoop_succ]
          rw [if_neg (by simp [hlcn]), if_pos (by simp [hrcs, hqt]), hval]
          simp only [if_neg (by simp : ¬ false = true)]
          rw [if_pos (by simp [hrcs, hqt]), hrcs]
          rw [ihr (pos ++ [true]) pos (fuel + 1) (acc ++ [v]) hpr hr hsbt]
          rw [parentPos_concat]
          rw [inOrderLoop_exit_right t hp hr fuel]
          have : acc ++ [v] ++ inorder r = acc ++ inorder (JTree.node v l r c h) := by
            simp [inorder, hl]
          rw [this]
      · -- left child present: descend left first
        have hlcs : childPos t pos false = some (pos ++ [false]) := by
          rw [childPos_of_subtree hp false]; simp [hl]
        have hineq : (some (pos ++ [false]) : Option (List Bool)) ≠ some (pos ++ [true]) := by
          simp
        have hsbf : strictBelow q (pos ++ [false]) = false := strictBelow_concat_false hq false
        by_cases hr : r = .nil
        · have hrcn : childPos t pos true = none := by
            rw [childPos_of_subtree hp true]; simp [hr]
          have harith : itersIn (JTree.node v l r c h) + fuel
              = (itersIn l + (fuel + 1)) + 1 := by
            simp [itersIn, hl, hr]; omega
          rw [harith, inOrderLoop_succ]
          rw [if_pos (by simp [hlcs, hrcn, hqf]), hlcs]
          rw [ihl (pos ++ [false]) q (fuel + 1) acc hpl hl hsbf]
          rw [parentPos_concat]
          -- now the visit iteration with prev = pos ++ [false]
          rw [inOrderLoop_succ]
          rw [if_neg (by simp [hlcs]), if_pos (by simp [hrcn]), hval]
          simp only [if_neg (by simp : ¬ false = true), hrcn]
          rw [if_neg (by simp)]
          have : acc ++ inorder l ++ [v] = acc ++ inorder (JTree.node v l r c h) := by
            simp [inorder, hr]
          rw [this]
        · have hrcs : childPos t pos true = some (pos ++ [true]) := by
            rw [childPos_of_subtree hp true]; simp [hr]
          have harith : itersIn (JTree.node v l r c h) + fuel
              = (itersIn l + ((itersIn r + (fuel + 1)) + 1)) + 1 := by
            simp [itersIn, hl, hr]; omega
          rw [harith, inOrderLoop_succ]
          rw [if_pos (by simp [hlcs, hrcs, hqf, hqt]), hlcs]
          rw [ihl (pos ++ [false]) q ((itersIn r + (fuel + 1)) + 1) acc hpl hl hsbf]
          rw [parentPos_concat]
          rw [inOrderLoop_succ]
          rw [if_neg (by simp [hlcs]), if_pos (by simp [hrcs]), hval]
          simp only [if_neg (by simp : ¬ false = true)]
          rw [if_pos (by simp [hrcs]), hrcs]
          rw [ihr (pos ++ [true]) pos (fuel + 1) (acc ++ inorder l ++ [v]) hpr hr hsbt]
          rw [parentPos_concat]
          rw [inOrderLoop_exit_right t hp hr fuel]
          have : acc ++ inorder l ++ [v] ++ inorder r
              = acc ++ inorder (JTree.node v l r c h) := by
            simp [inorder]
          rw [this]

theorem inOrderLoop_climb (t : JTree) :
    ∀ (rpos : List Bool) (fuel : Nat) (acc : List Int),
      subtreeAt t rpos.reverse ≠ .nil →
      inOrderLoop t (fun _ => false) (itersUp t rpos + fuel)
          (parentPos rpos.reverse) rpos.reverse acc
        = acc ++ upChain t rpos := by
  intro rpos
  induction rpos with
  | nil =>
      intro fuel acc _
      show inOrderLoop t (fun _ => false) (itersUp t [] + fuel) (parentPos []) [] acc
        = acc ++ upChain t []
      rw [show parentPos [] = none from rfl, inOrderLoop_none]
      simp [upChain]
  | cons b rest ih =>
      intro fuel acc hne
      have hrev : (b :: rest).reverse = rest.reverse ++ [b] := by simp
      have hpne : subtreeAt t rest.reverse ≠ .nil := by
        intro hnil
        rw [hrev, subtreeAt_append, hnil, subtreeAt_nil_any] at hne
        exact hne rfl
      rcases hsub : subtreeAt t rest.reverse with _ | ⟨w, a, brt, c2, h2⟩
      · exact absurd hsub hpne
      have hchild : subtreeAt t (rest.reverse ++ [b]) = if b then brt else a := by
        rw [subtreeAt_append, hsub]; cases b <;> simp [subtreeAt]
      cases b with
      | true =>
          have hbne : brt ≠ .nil := by
            intro hb
            rw [hrev] at hne
            rw [hchild] at hne
            simp [hb] at hne
          have harith : itersUp t (true :: rest) + fuel = (itersUp t rest + fuel) + 1 := by
            simp [itersUp]; omega
          rw [hrev] at hne ⊢
          rw [parentPos_concat, harith]
          rw [inOrderLoop_exit_right t hsub hbne (itersUp t rest + fuel) acc]
          rw [ih fuel acc hpne]
          simp [upChain]
      | false =>
          have hane : a ≠ .nil := by
            intro ha
            rw [hrev] at hne
            rw [hchild] at hne
            simp [ha] at hne
          have hlcs : childPos t rest.reverse false = some (rest.reverse ++ [false]) := by
            rw [childPos_of_subtree hsub false]; simp [hane]
          have hval : valueAt t rest.reverse = w := valueAt_of_subtree hsub
          have hbrt : subtreeAt t (rest.reverse ++ [true]) = brt := by
            rw [subtreeAt_append, hsub]; simp [subtreeAt]
          rw [hrev] at hne ⊢
          rw [parentPos_concat]
          by_cases hbr : brt = .nil
          · have hrcn : childPos t rest.reverse true = none := by
              rw [childPos_of_subtree hsub true]; simp [hbr]
            have harith : itersUp t (false :: rest) + fuel = (itersUp t rest + fuel) + 1 := by
              simp only [itersUp]
              rw [if_neg (by simp), if_pos (by rw [hbrt]; exact hbr)]
              omega
            rw [harith, inOrderLoop_succ]
            rw [if_neg (by simp [hlcs]), if_pos (by simp [hrcn]), hval]
            simp only [if_neg (by simp : ¬ false = true), hrcn]
            rw [if_neg (by simp)]
            rw [ih fuel (acc ++ [w]) hpne]
            simp only [upChain]
            rw [if_neg (by simp)]
            rw [hval, hbrt]
            simp [hbr, inorder]
          · have hrcs : childPos t rest.reverse true = some (rest.reverse ++ [true]) := by
              rw [childPos_of_subtree hsub true]; simp [hbr]
            have harith : itersUp t (false :: rest) + fuel
                = ((itersIn brt + ((itersUp t rest + fuel) + 1)) + 1) := by
              simp only [itersUp]
              rw [if_neg (by simp), if_neg (by rw [hbrt]; exact hbr)]
              rw [hbrt]
              omega
            rw [harith, inOrderLoop_succ]
            rw [if_neg (by simp [hlcs]), if_pos (by simp [hrcs]), hval]
            simp only [if_neg (by simp : ¬ false = true)]
            rw [if_pos (by simp [hrcs]), hrcs]
            rw [inOrderLoop_subtree t brt (rest.reverse ++ [true]) rest.reverse
                  ((itersUp t rest + fuel) + 1) (acc ++ [w]) hbrt hbr
                  (strictBelow_extension_false rest.reverse true)]
            rw [parentPos_concat]
            rw [inOrderLoop_exit_right t hsub hbr (itersUp t rest + fuel) _]
            rw [ih fuel (acc ++ [w] ++ inorder brt) hpne]
            simp only [upChain]
            rw [if_neg (by simp)]
            rw [hval, hbrt]
            simp

theorem inorder_ne_nil (t : JTree) (hne : t ≠ .nil) : inorder t ≠ [] := by
  cases t with
  | nil => exact absurd rfl hne
  | node v l r c h => simp [inorder]

theorem subtreeAt_cons_false (v : Int) (l r : JTree) (c h : Int) (p : List Bool) :
    subtreeAt (.node v l r c h) (false :: p) = subtreeAt l p := rfl

theorem valueAt_cons_false (v : Int) (l r : JTree) (c h : Int) (p : List Bool) :
    valueAt (.node v l r c h) (false :: p) = valueAt l p := rfl

theorem leftmost_subtree :
    ∀ (t : JTree), t ≠ .nil →
      ∃ v r c h, subtreeAt t (leftmostPos t) = .node v .nil r c h
        ∧ (inorder t).head? = some v := by
  intro t
  induction t with
  | nil => intro hne; exact absurd rfl hne
  | node v l r c h ihl ihr =>
      intro _
      cases l with
      | nil =>
          refine ⟨v, r, c, h, rfl, ?_⟩
          simp [inorder]
      | node w a b c2 h2 =>
          obtain ⟨v0, r0, c0, h0, hsub, hhead⟩ := ihl (by simp)
          refine ⟨v0, r0, c0, h0, ?_, ?_⟩
          · rw [show leftmostPos (.node v (.node w a b c2 h2) r c h)
                  = false :: leftmostPos (.node w a b c2 h2) from rfl]
            rw [subtreeAt_cons_false]
            exact hsub
          · rw [show inorder (.node v (.node w a b c2 h2) r c h)
                  = inorder (.node w a b c2 h2) ++ v :: inorder r from rfl]
            rw [List.head?_append_of_ne_nil _ (inorder_ne_nil _ (by simp))]
            exact hhead

theorem posOf_leftmost :
    ∀ (t : JTree), (inorder t).Sorted (· < ·) → ∀ m, (inorder t).head? = some m →
      posOf t m = some (leftmostPos t) := by
  intro t
  induction t with
  | nil => intro _ m hm; simp [inorder] at hm
  | node v l r c h ihl ihr =>
      intro hs m hm
      have hsl : (inorder l).Sorted (· < ·) := (List.pairwise_append.mp hs).1
      have hlv : ∀ x ∈ inorder l, x < v :=
        fun x hx => (List.pairwise_append.mp hs).2.2 x hx v (List.mem_cons_self _ _)
      cases l with
      | nil =>
          have hmv : m = v := by simpa [inorder] using hm.symm
          subst hmv
          rw [posOf, if_pos rfl]
          rfl
      | node w a b c2 h2 =>
          have hlnn : inorder (JTree.node w a b c2 h2) ≠ [] := inorder_ne_nil _ (by simp)
          have hmhead : (inorder (JTree.node w a b c2 h2)).head? = some m := by
            rw [show inorder (.node v (.node w a b c2 h2) r c h)
                  = inorder (.node w a b c2 h2) ++ v :: inorder r from rfl] at hm
            rw [List.head?_append_of_ne_nil _ hlnn] at hm
            exact hm
          have hmem : m ∈ inorder (JTree.node w a b c2 h2) := List.mem_of_mem_head? hmhead
          have hmv : m < v := hlv m hmem
          rw [posOf, if_neg (by omega : ¬ v = m)]
          rw [ihl hsl m hmhead]
          rfl

theorem upChain_cons_true (t : JTree) (rest : List Bool) :
    upChain t (true :: rest) = upChain t rest := by
  rw [upChain, if_pos rfl]

theorem upChain_cons_false (t : JTree) (rest : List Bool) :
    upChain t (false :: rest)
      = valueAt t rest.reverse
          :: (inorder (subtreeAt t (rest.reverse ++ [true])) ++ upChain t rest) := by
  rw [upChain, if_neg (show ¬ (false = true) by simp)]

theorem itersUp_cons_true (t : JTree) (rest : List Bool) :
    itersUp t (true :: rest) = 1 + itersUp t rest := by
  rw [itersUp, if_pos rfl]

theorem itersUp_cons_false (t : JTree) (rest : List Bool) :
    itersUp t (false :: rest)
      = 1 + (if subtreeAt t (rest.reverse ++ [true]) = .nil then 0
             else itersIn (subtreeAt t (rest.reverse ++ [true])) + 1) + itersUp t rest := by
  rw [itersUp, if_neg (show ¬ (false = true) by simp)]

theorem upChain_concat_false (v : Int) (l r : JTree) (c h : Int) :
    ∀ (rq : List Bool),
      upChain (.node v l r c h) (rq ++ [false]) = upChain l rq ++ v :: inorder r := by
  intro rq
  induction rq with
  | nil =>
      show upChain (.node v l r c h) (false :: []) = upChain l [] ++ v :: inorder r
      rw [upChain_cons_false]
      simp [valueAt, subtreeAt, upChain, inorder]
  | cons b rest ih =>
      cases b with
      | true =>
          show upChain (.node v l r c h) (true :: (rest ++ [false]))
            = upChain l (true :: rest) ++ v :: inorder r
          rw [upChain_cons_true, upChain_cons_true]
          exact ih
      | false =>
          show upChain (.node v l r c h) (false :: (rest ++ [false]))
            = upChain l (false :: rest) ++ v :: inorder r
          rw [upChain_cons_false, upChain_cons_false]
          have hrev : (rest ++ [false]).reverse = false :: rest.reverse := by simp
          rw [hrev]
          rw [valueAt_cons_false]
          rw [show (false :: rest.reverse) ++ [true] = false :: (rest.reverse ++ [true]) from rfl]
          rw [subtreeAt_cons_false]
          rw [ih]
          simp

theorem itersUp_concat_false (v : Int) (l r : JTree) (c h : Int) :
    ∀ (rq : List Bool),
      itersUp (.node v l r c h) (rq ++ [false])
        = itersUp l rq + (1 + (if r = .nil then 0 else itersIn r + 1)) := by
  intro rq
  induction rq with
  | nil =>
      show itersUp (.node v l r c h) (false :: [])
        = itersUp l [] + (1 + (if r = .nil then 0 else itersIn r + 1))
      rw [itersUp_cons_false]
      cases r <;> simp [subtreeAt, itersUp]
  | cons b rest ih =>
      cases b with
      | true =>
          show itersUp (.node v l r c h) (true :: (rest ++ [false]))
            = itersUp l (true :: rest) + (1 + (if r = .nil then 0 else itersIn r + 1))
          rw [itersUp_cons_true, itersUp_cons_true]
          rw [ih]
          omega
      | false =>
          show itersUp (.node v l r c h) (false :: (rest ++ [false]))
            = itersUp l (false :: rest) + (1 + (if r = .nil then 0 else itersIn r + 1))
          rw [itersUp_cons_false, itersUp_cons_false]
          have hrev : (rest ++ [false]).reverse = false :: rest.reverse := by simp
          rw [hrev]
          rw [show (false :: rest.reverse) ++ [true] = false :: (rest.reverse ++ [true]) from rfl]
          rw [subtreeAt_cons_false]
          rw [ih]
          omega

theorem inorder_leftmost_decomposition :
    ∀ (t : JTree), t ≠ .nil →
      inorder (subtreeAt t (leftmostPos t)) ++ upChain t (leftmostPos t).reverse
        = inorder t := by
  intro t
  induction t with
  | nil => intro hne; exact absurd rfl hne
  | node v l r c h ihl ihr =>
      intro _
      cases l with
      | nil =>
          show inorder (.node v .nil r c h) ++ upChain (.node v .nil r c h) [].reverse
            = inorder (.node v .nil r c h)
          rw [show ([] : List Bool).reverse = [] from rfl, upChain]
          simp
      | node w a b c2 h2 =>
          have hlm : leftmostPos (.node v (.node w a b c2 h2) r c h)
              = false :: leftmostPos (.node w a b c2 h2) := rfl
          rw [hlm, subtreeAt_cons_false]
          rw [show (false :: leftmostPos (.node w a b c2 h2)).reverse
                = (leftmostPos (.node w a b c2 h2)).reverse ++ [false] from by simp]
          rw [upChain_concat_false]
          rw [← List.append_assoc]
          rw [ihl (by simp)]
          rfl

theorem itersIn_le : ∀ (s : JTree), itersIn s ≤ 3 * natSize s := by
  intro s
  induction s with
  | nil => simp [itersIn, natSize]
  | node v l r c h ihl ihr =>
      rw [itersIn, natSize]
      split_ifs <;> omega

theorem iters_total_le :
    ∀ (t : JTree), t ≠ .nil →
      itersIn (subtreeAt t (leftmostPos t)) + itersUp t (leftmostPos t).reverse
        ≤ 3 * natSize t := by
  intro t
  induction t with
  | nil => intro hne; exact absurd rfl hne
  | node v l r c h ihl ihr =>
      intro _
      cases l with
      | nil =>
          show itersIn (.node v .nil r c h) + itersUp (.node v .nil r c h) [].reverse
            ≤ 3 * natSize (.node v .nil r c h)
          rw [show ([] : List Bool).reverse = [] from rfl, itersUp]
          have := itersIn_le (.node v .nil r c h)
          omega
      | node w a b c2 h2 =>
          have hlm : leftmostPos (.node v (.node w a b c2 h2) r c h)
              = false :: leftmostPos (.node w a b c2 h2) := rfl
          rw [hlm, subtreeAt_cons_false]
          rw [show (false :: leftmostPos (.node w a b c2 h2)).reverse
                = (leftmostPos (.node w a b c2 h2)).reverse ++ [false] from by simp]
          rw [itersUp_concat_false]
          have hIl := ihl (by simp)
          have hIr := itersIn_le r
          rw [show natSize (.node v (.node w a b c2 h2) r c h)
                = natSize (.node w a b c2 h2) + natSize r + 1 from rfl]
          split_ifs <;> omega

theorem getValues_eq_inorder (t : AVLTree)
    (hs : (inorder t.root_).Sorted (· < ·))
    (hmn : t.minNode_ = (inorder t.root_).head?) :
    getValues t = inorder t.root_ := by
  rcases hroot : t.root_ with _ | ⟨v, l, r, c, h⟩
  · simp [getValues, inOrderTraverse, hroot, inorder]
  · rw [hroot] at hs hmn
    have hne : (JTree.node v l r c h) ≠ .nil := by simp
    obtain ⟨v0, r0, c0, h0, hsub0, hhead⟩ := leftmost_subtree (.node v l r c h) hne
    have hmn2 : t.minNode_ = some v0 := by rw [hmn, hhead]
    have hpos : posOf (.node v l r c h) v0 = some (leftmostPos (.node v l r c h)) :=
      posOf_leftmost _ hs v0 hhead
    have hprev : childPos (.node v l r c h) (leftmostPos (.node v l r c h)) false = none := by
      rw [childPos_of_subtree hsub0 false]; simp
    have htrav : inOrderTraverse t (fun _ => false) none
        = .ok (inOrderLoop (.node v l r c h) (fun _ => false)
            (loopFuel (.node v l r c h))
            (some (leftmostPos (.node v l r c h))) (leftmostPos (.node v l r c h)) []) := by
      rw [inOrderTraverse, hroot]
      simp only [truthy, Bool.false_eq_true, if_neg (show ¬ (False) by simp)]
      rw [hmn2]
      simp only [Option.some_bind]
      rw [hpos]
      simp only [hprev, Option.getD_none]
    have hlm_ne : subtreeAt (.node v l r c h) (leftmostPos (.node v l r c h)) ≠ .nil := by
      rw [hsub0]; simp
    have hbound := iters_total_le (.node v l r c h) hne
    obtain ⟨k, hk⟩ := Nat.le.dest hbound
    have hfuel : loopFuel (.node v l r c h)
        = itersIn (subtreeAt (.node v l r c h) (leftmostPos (.node v l r c h)))
          + ((itersUp (.node v l r c h) (leftmostPos (.node v l r c h)).reverse) + (k + 3)) := by
      rw [loopFuel]; omega
    have hloop : inOrderLoop (.node v l r c h) (fun _ => false)
          (loopFuel (.node v l r c h))
          (some (leftmostPos (.node v l r c h))) (leftmostPos (.node v l r c h)) []
        = inorder (.node v l r c h) := by
      rw [hfuel]
      rw [inOrderLoop_subtree (.node v l r c h) _ (leftmostPos (.node v l r c h))
            (leftmostPos (.node v l r c h)) _ [] rfl hlm_ne (strictBelow_self _)]
      have hrr : ((leftmostPos (.node v l r c h)).reverse).reverse
          = leftmostPos (.node v l r c h) := List.reverse_reverse _
      have hcl := inOrderLoop_climb (.node v l r c h)
        (leftmostPos (.node v l r c h)).reverse (k + 3)
        ([] ++ inorder (subtreeAt (.node v l r c h) (leftmostPos (.node v l r c h))))
        (by rw [hrr]; exact hlm_ne)
      rw [hrr] at hcl
      rw [hcl]
      simp only [List.nil_append]
      exact inorder_leftmost_decomposition (.node v l r c h) hne
    simp only [getValues, htrav, hloop]

/-- Claim C5 (confirmed): for every tree satisfying the spec's ordering,
uniqueness, size-consistency and min-cache invariants (1, 3, 5, 6 — all of
which hold on reachable trees; the broken height fields of C1 play no role
here), `getNthValue(k)` returns `null` exactly when `k < 0` or
`k ≥ getCount()`, and for every `k` in `[0, getCount())` it returns the
`k`-th element (0-based) of the ascending sequence `getValues()` — the
`k`-th smallest value under the comparator. -/
theorem getNthValue_indexes_getValues :
    ∀ (t : AVLTree) (k : Int),
      (inorder t.root_).Sorted (· < ·) →
      countConsistent t.root_ = true →
      t.minNode_ = (inorder t.root_).head? →
      (getNthValue t k = none ↔ (k < 0 ∨ getCount t ≤ k))
      ∧ (0 ≤ k → k < getCount t → getNthValue t k = (getValues t)[k.toNat]?) := by
  intro t k hs hc hmn
  have hgv : getValues t = inorder t.root_ := getValues_eq_inorder t hs hmn
  have hcnt : getCount t = ((inorder t.root_).length : Int) := by
    rw [getCount, countOf_eq_length t.root_ hc]
  have hcnt2 : getCount t = countOf t.root_ := rfl
  constructor
  · constructor
    · intro hnone
      by_contra hrange
      push_neg at hrange
      obtain ⟨h0, hlt⟩ := hrange
      rw [getNthValue, if_neg (by omega)] at hnone
      rw [getKthNode_eq_inorder_get t.root_ k hc (by omega) (by rw [← hcnt2]; omega)] at hnone
      have hk : k.toNat < (inorder t.root_).length := by omega
      rw [List.getElem?_eq_getElem hk] at hnone
      simp at hnone
    · intro hout
      rw [getNthValue, if_pos (by omega)]
  · intro h0 hlt
    rw [getNthValue, if_neg (by omega), hgv]
    exact getKthNode_eq_inorder_get t.root_ k hc h0 (by rw [← hcnt2]; omega)

/-- Concrete instantiation of `getNthValue_indexes_getValues` on the tree
`{1, 2, 3}` with `k = 1`, discharging every hypothesis by evaluation. -/
theorem getNthValue_indexes_getValues_witness :
    ((inorder (treeOf [2, 1, 3]).root_).Sorted (· < ·)
     ∧ countConsistent (treeOf [2, 1, 3]).root_ = true
     ∧ (treeOf [2, 1, 3]).minNode_ = (inorder (treeOf [2, 1, 3]).root_).head?)
    ∧ ((getNthValue (treeOf [2, 1, 3]) 1 = none
          ↔ ((1 : Int) < 0 ∨ getCount (treeOf [2, 1, 3]) ≤ 1))
       ∧ ((0 : Int) ≤ 1 → (1 : Int) < getCount (treeOf [2, 1, 3]) →
            getNthValue (treeOf [2, 1, 3]) 1 = (getValues (treeOf [2, 1, 3]))[(1 : Int).toNat]?)) :=
  ⟨⟨by decide, by decide, by decide⟩,
   getNthValue_indexes_getValues (treeOf [2, 1, 3]) 1 (by decide) (by decide) (by decide)⟩

end JSAVLTree
